import Mathlib

/-!
Verification of the synedrion CGGMP21 threshold-ECDSA engine against its
natural-language specification.

The development shallowly embeds the parts of the Rust sources needed by the
claims:

* `src/synedrion/src/uint/pow.rs` — signed-exponent Montgomery exponentiation
  (`pow_signed`, `pow_signed_vartime`).  A Montgomery-form residue that is
  invertible is an element of the unit group of the ring, so the embedding
  works in an arbitrary (multiplicative) group; `pow_bounded_exp base e bound`
  processes exactly `bound` low bits of the exponent, i.e. raises to
  `e % 2 ^ bound`.
* `src/src/tools/hashing.rs` — the XOF hasher's `finalize_boxed`.  The SHAKE
  reader (external `digest` crate) is an abstract byte stream; `read_boxed n`
  reads exactly `n` bytes from it.
* `src/synedrion/src/uint/bounded.rs` — `Bounded<T>` with its bit-bound
  invariant, `mul_wide`, `checked_mul`, and the packed wire form
  `PackedBounded` with its conversions.  Machine integers are `Nat` with the
  type width `bits` (resp. a byte width `nb`, `bits = 8 * nb`) an explicit
  parameter; wrapping arithmetic is `% 2 ^ bits`.
* `src/synedrion/src/protocols/common.rs` — `KeyShare`, `KeyShareChange`,
  `KeyShare::update`, `verifying_key_as_point`.
* `src/synedrion/src/cggmp21/protocols/signing.rs` — the one-round signing
  combine (`Round1::new`, `make_broadcast`, `verify_broadcast`,
  `finalize_to_result`).
* `src/synedrion/src/cggmp21/protocols/presigning.rs` — the three-round
  pre-signing protocol: the Round 2/Round 3 share arithmetic of an honest run
  and `Round3::finalize_to_result`.
* `src/src/protocols/misbehavior_tests/key_refresh.rs` — the canonical
  evidence description pinned by the `r2_rp_modulus_too_small` test.

Curve model.  The secp256k1 primitives are an external library per the spec
("treated as a provided library").  The group of curve points is cyclic of
prime order `q`, hence isomorphic to `ZMod q`; we represent a point by its
discrete logarithm base the generator: `Scalar := ZMod q`, `Point := ZMod q`,
`mul_by_generator x = x`, point addition is `+`, and multiplying a point by a
scalar multiplies the exponents.  Functions whose definition lives in the
external curve adapter (`x_coordinate`, `RecoverableSignature::from_scalars`)
are abstract parameters.

Paillier plaintext model.  For the honest pre-signing run the homomorphic
ciphertext layer is represented by its plaintext semantics over `ℤ`
(an honest run keeps every plaintext inside `(-N/2, N/2]`, where Paillier
decryption to a signed integer is exact), which is the arithmetic the claims
quantify over.
-/

namespace SynedrionVerify

/-! ## Signed-exponent exponentiation (`src/synedrion/src/uint/pow.rs`) -/

/-- A `Signed<T>` value in exponent position: its magnitude `absVal`
(`Signed::abs`), bit bound `bound` (`Signed::bound`) and sign
(`Signed::is_negative`).  The type invariant of `Signed` is
`absVal < 2 ^ bound`. -/
structure SignedExp where
  absVal : ℕ
  bound : ℕ
  neg : Bool
deriving DecidableEq, Repr

/-- `pow_bounded_exp(base, exp, bound)` iterates exactly `bound` bits of the
exponent, i.e. it raises `base` to the `bound` low bits of `exp`. -/
def pow_bounded_exp {G : Type} [Group G] (base : G) (exp : ℕ) (bound : ℕ) : G :=
  base ^ (exp % 2 ^ bound)

/-- `subtle`'s `conditional_select(a, b, choice)`: returns `b` when the choice
bit is set, `a` otherwise. -/
def conditional_select {G : Type} (a b : G) (choice : Bool) : G :=
  if choice then b else a

/-- `pow_signed` from `src/synedrion/src/uint/pow.rs`: constant-time
exponentiation by a signed exponent.  The `invert().expect(..)` on an
invertible base is group inversion. -/
def pow_signed {G : Type} [Group G] (uint : G) (exponent : SignedExp) : G :=
  let abs_exponent := exponent.absVal
  let abs_result := pow_bounded_exp uint abs_exponent exponent.bound
  let inv_result := abs_result⁻¹
  conditional_select abs_result inv_result exponent.neg

/-- `pow_signed_vartime` from `src/synedrion/src/uint/pow.rs`: variable-time
exponentiation by a signed exponent, branching on the sign. -/
def pow_signed_vartime {G : Type} [Group G] (uint : G) (exponent : SignedExp) : G :=
  let abs_exponent := exponent.absVal
  let abs_result := pow_bounded_exp uint abs_exponent exponent.bound
  if exponent.neg then abs_result⁻¹ else abs_result

/-! ## XOF hasher (`src/src/tools/hashing.rs`) -/

/-- `XofReader::read_boxed(len)`: reading `len` bytes from a SHAKE-256 output
stream (the stream itself is the external `digest` crate; it is an abstract
function from positions to bytes). -/
def read_boxed (reader : ℕ → ℕ) (len : ℕ) : List ℕ :=
  (List.range len).map reader

/-- `XofHasher::finalize_boxed(security_bits)` from `src/src/tools/hashing.rs`:
reads `(security_bits * 2).div_ceil(8)` bytes from the finalized XOF stream
(`usize::div_ceil` by 8 is `(x + 7) / 8`). -/
def finalize_boxed (reader : ℕ → ℕ) (security_bits : ℕ) : List ℕ :=
  read_boxed reader ((security_bits * 2 + 7) / 8)

/-! ## Bounded integers (`src/synedrion/src/uint/bounded.rs`)

`Bounded<T>` holds a value together with a bit bound.  The backing integer
type `T` is `Nat` restricted to the width `bits = T::BITS`; `value.bits()` is
`Nat.size`. -/

/-- The `Bounded<T>` record: `bound` is the asserted bit bound of `value`. -/
structure BoundedInt where
  bound : ℕ
  value : ℕ
deriving DecidableEq, Repr

namespace BoundedInt

/-- `Bounded::new(value, bound)`: fails when `bound > T::BITS` or
`value.bits() > bound`. -/
def new (bits : ℕ) (value : ℕ) (bound : ℕ) : Option BoundedInt :=
  if bound > bits ∨ Nat.size value > bound then none else some ⟨bound, value⟩

/-- The invariant guaranteed by `Bounded::new` for width `bits`:
`value.bits() ≤ bound ≤ T::BITS`. -/
def Valid (bits : ℕ) (b : BoundedInt) : Prop :=
  Nat.size b.value ≤ b.bound ∧ b.bound ≤ bits

instance (bits : ℕ) (b : BoundedInt) : Decidable (Valid bits b) := by
  unfold Valid; infer_instance

/-- `Bounded::mul_wide`: the full product in the wide type (width `2 * bits`),
with bound the sum of the bounds. -/
def mul_wide (x y : BoundedInt) : BoundedInt :=
  { bound := x.bound + y.bound
    value := x.value * y.value }

/-- `Bounded::checked_mul`: wrapping multiplication at width `bits`, returned
only when the summed bound is strictly below the width. -/
def checked_mul (bits : ℕ) (x y : BoundedInt) : Option BoundedInt :=
  let bound := x.bound + y.bound
  let in_range := bound < bits
  let result : BoundedInt := ⟨bound, (x.value * y.value) % 2 ^ bits⟩
  if in_range then some result else none

end BoundedInt

/-! ## Packed wire form (`PackedBounded`, same file)

Big-endian byte strings are modeled as `List ℕ` with entries below 256.
`toBeBytes len v` is `v`'s big-endian representation on `len` bytes
(`T::to_be_bytes` has `len = T::BITS / 8` bytes); little-endian helpers are
used for the proofs. -/

/-- Little-endian byte expansion on exactly `len` bytes. -/
def toLeBytes : ℕ → ℕ → List ℕ
  | 0, _ => []
  | len + 1, v => v % 256 :: toLeBytes len (v / 256)

/-- Value of a little-endian byte string. -/
def fromLeBytes (l : List ℕ) : ℕ :=
  l.foldr (fun b acc => b + 256 * acc) 0

/-- `to_be_bytes` on `len` bytes. -/
def toBeBytes (len v : ℕ) : List ℕ :=
  (toLeBytes len v).reverse

/-- Value of a big-endian byte string (`T::from_be_bytes`). -/
def fromBeBytes (l : List ℕ) : ℕ :=
  fromLeBytes l.reverse

/-- The serialized form of a `Bounded` object: the bound plus the minimal
big-endian byte string. -/
structure PackedBounded where
  bound : ℕ
  bytes : List ℕ
deriving DecidableEq, Repr

/-- `impl From<Bounded<T>> for PackedBounded` for a `T` of `nb` bytes: keep
the last `(bound + 7) / 8` bytes of the big-endian representation. -/
def packBounded (nb : ℕ) (b : BoundedInt) : PackedBounded :=
  let repr := toBeBytes nb b.value
  let bound_bytes := (b.bound + 7) / 8
  { bound := b.bound
    bytes := repr.drop (repr.length - bound_bytes) }

/-- `impl TryFrom<PackedBounded> for Bounded<T>`: rejects byte strings longer
than the integer representation, left-pads with zeros, and validates through
`Bounded::new`. -/
def unpackBounded (nb : ℕ) (p : PackedBounded) : Option BoundedInt :=
  if nb < p.bytes.length then none
  else BoundedInt.new (8 * nb) (fromBeBytes (List.replicate (nb - p.bytes.length) 0 ++ p.bytes)) p.bound

/-! ## Curve model and key shares (`src/synedrion/src/protocols/common.rs`)

`Scalar` is the field `ZMod q` (`q` the prime group order).  A `Point` is
represented by its discrete logarithm base the generator, also `ZMod q`:
`mul_by_generator x = x`, point addition is addition, and scalar
multiplication of a point is multiplication of the exponents. -/

/-- `KeySharePublic<P>`: the per-party public data.  `share_pk` and
`el_gamal_pk` are curve points (exponent representation); the Paillier public
key and the two ring-Pedersen values are opaque wire integers. -/
structure KeySharePublic (q : ℕ) where
  share_pk : ZMod q
  el_gamal_pk : ZMod q
  paillier_pk : ℕ
  rp_generator : ℕ
  rp_power : ℕ

/-- `KeyShareSecret<P>`. -/
structure KeyShareSecret (q : ℕ) where
  share_sk : ZMod q
  paillier_sk : ℕ
  el_gamal_sk : ZMod q

/-- `KeyShare<P>`. -/
structure KeyShare (q : ℕ) where
  index : ℕ
  secret : KeyShareSecret q
  public : List (KeySharePublic q)

/-- `KeyShareChangeSecret<P>` / `KeyShareChangePublic<P>` have the same shape
as the share itself, so `KeyShareChange<P>` is represented by `KeyShare q`
(in `change.public`, `share_pk` is the additive delta `X_k^* - X_k`). -/
abbrev KeyShareChange (q : ℕ) := KeyShare q

/-- `KeyShare::update`: add the secret share delta, replace the Paillier and
ElGamal secrets, and pointwise add the public share deltas while replacing
the remaining public data. -/
def KeyShare.update {q : ℕ} (self : KeyShare q) (change : KeyShareChange q) : KeyShare q :=
  let secret : KeyShareSecret q :=
    { share_sk := self.secret.share_sk + change.secret.share_sk
      paillier_sk := change.secret.paillier_sk
      el_gamal_sk := change.secret.el_gamal_sk }
  let public := List.zipWith
    (fun (self_public change_public : KeySharePublic q) =>
      { share_pk := self_public.share_pk + change_public.share_pk
        el_gamal_pk := change_public.el_gamal_pk
        paillier_pk := change_public.paillier_pk
        rp_generator := change_public.rp_generator
        rp_power := change_public.rp_power : KeySharePublic q })
    self.public change.public
  { index := change.index, secret := secret, public := public }

/-- `KeyShare::verifying_key_as_point`: the sum of the public share points. -/
def KeyShare.verifying_key_as_point {q : ℕ} (self : KeyShare q) : ZMod q :=
  (self.public.map (fun p => p.share_pk)).sum

/-! ## Signing combine round (`src/synedrion/src/cggmp21/protocols/signing.rs`)

`HoleRange::new(num_parties, hole)` (from `tools/collections`, whose source is
not among the provided files) ranges over the indices `0 .. num_parties`
excluding `hole`; this is its use throughout the protocol code as the set of
all peers of a party.  `HoleVec` payloads are plain lists of the peers'
messages. -/

/-- Modelled from the spec: `HoleRange::new(num_parties, hole)` iterates the
party indices other than `hole`; the `tools/collections` module itself is not
among the provided sources. -/
def holeRange (num_parties hole : ℕ) : List ℕ :=
  (List.range num_parties).filter (fun j => j ≠ hole)

/-- `PresigningData` as consumed by the signing round: the nonce point `R`,
the ephemeral scalar share `k_i`, and the product share `χ_i` (the per-peer
proof auxiliaries kept for the correctness-proof branch are opaque to the
signing arithmetic). -/
structure PresigningData (q : ℕ) where
  nonce : ZMod q
  ephemeral_scalar_share : ZMod q
  product_share : ZMod q

/-- The signing `Context`: message scalar, presigning output and key share. -/
structure SigningContext (q : ℕ) where
  message : ZMod q
  presigning : PresigningData q
  key_share : KeyShare q

/-- The signing `Round1` state. -/
structure SigningRound1 (q : ℕ) where
  r : ZMod q
  s_part : ZMod q
  context : SigningContext q
  num_parties : ℕ
  party_idx : ℕ

/-- `Round1::new`: `r` is the x-coordinate of the nonce point (computed by the
external curve adapter `x_coordinate`), and the share is
`s_i = k_i * m + r * χ_i`. -/
def signingRound1New {q : ℕ} (x_coordinate : ZMod q → ZMod q)
    (num_parties party_idx : ℕ) (context : SigningContext q) : SigningRound1 q :=
  let r := x_coordinate context.presigning.nonce
  let s_part := context.presigning.ephemeral_scalar_share * context.message
    + r * context.presigning.product_share
  { r := r, s_part := s_part, context := context
    num_parties := num_parties, party_idx := party_idx }

/-- The `Round1Bcast` message. -/
structure SigningRound1Bcast (q : ℕ) where
  s_part : ZMod q
deriving DecidableEq

/-- `Round1::make_broadcast`. -/
def signingMakeBroadcast {q : ℕ} (self : SigningRound1 q) : SigningRound1Bcast q :=
  { s_part := self.s_part }

/-- `Round1::verify_broadcast`: accepts unconditionally and returns the
contained signature share as the payload. -/
def signingVerifyBroadcast {q : ℕ} (_self : SigningRound1 q) (_from_idx : ℕ)
    (msg : SigningRound1Bcast q) : Except Unit (ZMod q) :=
  Except.ok msg.s_part

/-- The `SigningProof` correctness-proof bundle.  The attached sigma proofs
are freshly sampled ZK objects; the bundle structure records, per the source,
which (statement-index) entries are generated: `Π^aff-g` for each `(j, l)`
pair of the two `HoleRange` loops, one `Π^mul*` per `l`, one `Π^dec` per
`l`. -/
structure SigningProof where
  aff_g_parties : List (ℕ × ℕ)
  mul_star_parties : List ℕ
  dec_parties : List ℕ
deriving DecidableEq, Repr

/-- `Round1::finalize_to_result`: sum the received shares with the own share,
assemble `(r, s)` through the curve adapter's
`RecoverableSignature::from_scalars` against the verifying key and the
message; on failure construct the correctness-proof bundle. -/
def signingFinalizeToResult {q : ℕ} {Sig : Type}
    (from_scalars : ZMod q → ZMod q → ZMod q → ZMod q → Option Sig)
    (self : SigningRound1 q) (bc_payloads : List (ZMod q)) :
    Except SigningProof Sig :=
  let s := bc_payloads.sum + self.s_part
  match from_scalars self.r s self.context.key_share.verifying_key_as_point
      self.context.message with
  | some sig => Except.ok sig
  | none =>
    let my_idx := self.party_idx
    let num_parties := self.num_parties
    Except.error
      { aff_g_parties := (holeRange num_parties my_idx).flatMap
          (fun j => (holeRange num_parties my_idx).map (fun l => (j, l)))
        mul_star_parties := holeRange num_parties my_idx
        dec_parties := holeRange num_parties my_idx }

/-! ## Pre-signing (`src/synedrion/src/cggmp21/protocols/presigning.rs`)

The generic Round 3 finalize is embedded over the payload lists it receives;
the honest-run instantiation below supplies the payloads an honest execution
of Rounds 1–3 produces.  Paillier ciphertexts appear through their plaintext
semantics over `ℤ` (exact in an honest run, where every plaintext stays in
the window `(-N/2, N/2]` of the signed decryption). -/

/-- The `PresigningProof` correctness-proof bundle: `Π^aff-g` entries for each
`(j, l)` pair of the two `HoleRange` loops, one `Π^mul` proof, and one
`Π^dec` entry per `j`. -/
structure PresigningProof where
  aff_g_parties : List (ℕ × ℕ)
  dec_parties : List ℕ
deriving DecidableEq, Repr

/-- `Round3::finalize_to_result`.  Sums the received `(δ_j, Δ_j)` payloads
with the own contribution; if `g·δ = Δ` (in exponent representation the point
of `δ` is `δ` itself) the nonce `R = Γ · δ⁻¹` and the presigning data are
returned (`delta.invert().unwrap()` panics on a zero `δ`, modeled as `none`);
otherwise the correctness-proof bundle is built and returned as the error. -/
def presigningRound3Finalize {q : ℕ} (num_parties my_idx : ℕ)
    (peer_deltas peer_big_deltas : List (ZMod q))
    (own_delta own_big_delta big_gamma ephemeral_scalar_share product_share : ZMod q) :
    Option (Except PresigningProof (PresigningData q)) :=
  let delta := peer_deltas.sum + own_delta
  let big_delta := peer_big_deltas.sum + own_big_delta
  if delta = big_delta then
    if delta = 0 then none
    else some (Except.ok
      { nonce := big_gamma * delta⁻¹
        ephemeral_scalar_share := ephemeral_scalar_share
        product_share := product_share })
  else
    some (Except.error
      { aff_g_parties := (holeRange num_parties my_idx).flatMap
          (fun j => (holeRange num_parties my_idx).map (fun l => (j, l)))
        dec_parties := holeRange num_parties my_idx })

/-! ### Honest execution of Rounds 1–3

Party inputs: secret key shares `x i`, Round 1 samples the ephemeral scalar
shares `k i` and masking scalars `γ i`; Round 2 samples the integers
`β i j`, `β̂ i j` (party `i`'s offsets for destination `j`).  `ZMod.val`
lifts a scalar to its canonical integer representative (the plaintext that
`uint_from_scalar` / `Signed::from_scalar` encrypts). -/

/-- Plaintext of the ciphertext `D_{j,i}` sent by party `i` to party `j` in
Round 2: `K_j · γ_i + enc(-β_{i,j})`. -/
def dPlain {q : ℕ} {n : ℕ} (k gam : Fin n → ZMod q) (beta : Fin n → Fin n → ℤ)
    (i j : Fin n) : ℤ :=
  ((k j).val : ℤ) * ((gam i).val : ℤ) - beta i j

/-- Plaintext of `D̂_{j,i}` sent by party `i` to party `j`:
`K_j · x_i + enc(-β̂_{i,j})`. -/
def dHatPlain {q : ℕ} {n : ℕ} (k x : Fin n → ZMod q) (betaHat : Fin n → Fin n → ℤ)
    (i j : Fin n) : ℤ :=
  ((k j).val : ℤ) * ((x i).val : ℤ) - betaHat i j

/-- Round 2 receive at party `i` of the message from `j`:
`α_{i,j} = Dec(D_{i,j})`, exact in an honest run. -/
def alphaPayload {q : ℕ} {n : ℕ} (k gam : Fin n → ZMod q) (beta : Fin n → Fin n → ℤ)
    (i j : Fin n) : ℤ :=
  dPlain k gam beta j i

/-- `α̂_{i,j} = Dec(D̂_{i,j}).to_scalar()`. -/
def alphaHatPayload {q : ℕ} {n : ℕ} (k x : Fin n → ZMod q) (betaHat : Fin n → Fin n → ℤ)
    (i j : Fin n) : ZMod q :=
  ((dHatPlain k x betaHat j i : ℤ) : ZMod q)

/-- Round 2 finalize at party `i`: `Γ = Σ_{j≠i} Γ_j + g·γ_i`. -/
def capGamma {q : ℕ} {n : ℕ} (gam : Fin n → ZMod q) (i : Fin n) : ZMod q :=
  (∑ j ∈ Finset.univ.erase i, gam j) + gam i

/-- Round 2 finalize at party `i`: `Δ_i = Γ · k_i`. -/
def bigDeltaShare {q : ℕ} {n : ℕ} (k gam : Fin n → ZMod q) (i : Fin n) : ZMod q :=
  capGamma gam i * k i

/-- Round 2 finalize at party `i`:
`δ_i = γ_i·k_i + Σ_{j≠i} α_{i,j} + Σ_{j≠i} β_{i,j}` over `ℤ`
(the `Signed` arithmetic of the source). -/
def deltaShare {q : ℕ} {n : ℕ} (k gam : Fin n → ZMod q) (beta : Fin n → Fin n → ℤ)
    (i : Fin n) : ℤ :=
  ((gam i).val : ℤ) * ((k i).val : ℤ)
    + (∑ j ∈ Finset.univ.erase i, alphaPayload k gam beta i j)
    + (∑ j ∈ Finset.univ.erase i, beta i j)

/-- Round 2 finalize at party `i`:
`χ_i = x_i·k_i + Σ_{j≠i} α̂_{i,j} + (Σ_{j≠i} β̂_{i,j}).to_scalar()`. -/
def productShare {q : ℕ} {n : ℕ} (x k : Fin n → ZMod q) (betaHat : Fin n → Fin n → ℤ)
    (i : Fin n) : ZMod q :=
  x i * k i + (∑ j ∈ Finset.univ.erase i, alphaHatPayload k x betaHat i j)
    + (((∑ j ∈ Finset.univ.erase i, betaHat i j : ℤ)) : ZMod q)

/-- The Round 3 direct message carries `δ_i` as a scalar. -/
def deltaScalarShare {q : ℕ} {n : ℕ} (k gam : Fin n → ZMod q) (beta : Fin n → Fin n → ℤ)
    (i : Fin n) : ZMod q :=
  ((deltaShare k gam beta i : ℤ) : ZMod q)

/-- The peers of party `i` (the `HoleVec` index set), as `Fin n`. -/
def holeListFin (n : ℕ) (i : Fin n) : List (Fin n) :=
  (List.finRange n).filter (fun j => j ≠ i)

/-- Round 3 finalize at party `i` of an honest run: the generic finalize
applied to the payloads produced by honest Rounds 1–3. -/
def presigningHonestFinalize {q : ℕ} {n : ℕ} (x k gam : Fin n → ZMod q)
    (beta betaHat : Fin n → Fin n → ℤ) (i : Fin n) :
    Option (Except PresigningProof (PresigningData q)) :=
  presigningRound3Finalize n i.val
    ((holeListFin n i).map (deltaScalarShare k gam beta))
    ((holeListFin n i).map (bigDeltaShare k gam))
    (deltaScalarShare k gam beta i)
    (bigDeltaShare k gam i)
    (capGamma gam i)
    (k i)
    (productShare x k betaHat i)

/-! ## Key-refresh Round 2 evidence description
(`src/src/protocols/misbehavior_tests/key_refresh.rs`)

The key-refresh round implementation itself is not among the provided
sources; the misbehavior test `r2_rp_modulus_too_small` pins the canonical
description of the evidence produced when a party presents ring-Pedersen
parameters with a too-small modulus.  `check_evidence` compares the
formatted evidence against the expected string, which carries the framework
prefix "Protocol error: " in every test of the file. -/

/-- The expected evidence string asserted by `r2_rp_modulus_too_small`
(line 446 of the test file). -/
def r2RpModulusTooSmallExpected : String :=
  "Protocol error: Round 2: ring-Pedersent modulus is too small."

/-- The framework prefix common to every expected string in the test file. -/
def protocolErrorPrefix : String :=
  "Protocol error: "

/-- Modelled from the spec: the canonical description the specification
claims for this evidence ("Round 2: ring-Pedersen modulus is too small."). -/
def r2RpModulusTooSmallSpecDescription : String :=
  "Round 2: ring-Pedersen modulus is too small."

/-! ## Theorems -/

/-- C6: for every invertible Montgomery-form base and every signed exponent
satisfying the `Signed` invariant, the constant-time `pow_signed` agrees with
the variable-time `pow_signed_vartime`, and both compute the power of the
magnitude (through `pow_bounded_exp`, iterating exactly `bound` bits) inverted
when the exponent is negative. -/
theorem claim_c6 {G : Type} [Group G] (uint : G) (exponent : SignedExp)
    (hbound : exponent.absVal < 2 ^ exponent.bound) :
    pow_signed uint exponent = pow_signed_vartime uint exponent ∧
    pow_signed uint exponent =
      (if exponent.neg then (uint ^ exponent.absVal)⁻¹ else uint ^ exponent.absVal) := by
  constructor
  · simp only [pow_signed, pow_signed_vartime, conditional_select]
  · simp only [pow_signed, conditional_select, pow_bounded_exp]
    rw [Nat.mod_eq_of_lt hbound]

/-- C6 witness: concrete evaluation in the unit group of `ZMod 12`
(multiplicative notation) at exponent magnitude 3, bound 2, negative sign. -/
theorem claim_c6_witness :
    pow_signed (Multiplicative.ofAdd (5 : ZMod 12)) ⟨3, 2, true⟩
        = pow_signed_vartime (Multiplicative.ofAdd (5 : ZMod 12)) ⟨3, 2, true⟩ ∧
    pow_signed (Multiplicative.ofAdd (5 : ZMod 12)) ⟨3, 2, true⟩
        = (if (⟨3, 2, true⟩ : SignedExp).neg
            then (Multiplicative.ofAdd (5 : ZMod 12) ^ (⟨3, 2, true⟩ : SignedExp).absVal)⁻¹
            else Multiplicative.ofAdd (5 : ZMod 12) ^ (⟨3, 2, true⟩ : SignedExp).absVal) :=
  claim_c6 (Multiplicative.ofAdd (5 : ZMod 12)) ⟨3, 2, true⟩ (by decide)

/-- C7: `finalize_boxed(security_bits)` returns exactly
`ceil(security_bits * 2 / 8)` bytes: its length is `(security_bits * 2 + 7) / 8`,
the least number of bytes whose bit capacity covers `security_bits * 2`. -/
theorem claim_c7 (reader : ℕ → ℕ) (security_bits : ℕ) :
    (finalize_boxed reader security_bits).length = (security_bits * 2 + 7) / 8 ∧
    security_bits * 2 ≤ 8 * (finalize_boxed reader security_bits).length ∧
    8 * (finalize_boxed reader security_bits).length < security_bits * 2 + 8 := by
  have h : (finalize_boxed reader security_bits).length = (security_bits * 2 + 7) / 8 := by
    simp [finalize_boxed, read_boxed]
  refine ⟨h, ?_, ?_⟩ <;> rw [h] <;> omega

/-- C8: `mul_wide` carries the exact product with bound the sum of the bounds
(and that bound is valid at the doubled width), and `checked_mul` succeeds with
the exact (unwrapped) product and the summed bound precisely when the summed
bound is below the type's bit width, failing otherwise. -/
theorem claim_c8 (bits : ℕ) (x y : BoundedInt)
    (hx : x.Valid bits) (hy : y.Valid bits) :
    (x.mul_wide y).bound = x.bound + y.bound ∧
    (x.mul_wide y).value = x.value * y.value ∧
    (x.mul_wide y).Valid (2 * bits) ∧
    (x.bound + y.bound < bits →
      BoundedInt.checked_mul bits x y = some ⟨x.bound + y.bound, x.value * y.value⟩) ∧
    (bits ≤ x.bound + y.bound → BoundedInt.checked_mul bits x y = none) := by
  obtain ⟨hxs, hxb⟩ := hx
  obtain ⟨hys, hyb⟩ := hy
  have hxv : x.value < 2 ^ x.bound := Nat.size_le.mp hxs
  have hyv : y.value < 2 ^ y.bound := Nat.size_le.mp hys
  have hprod : x.value * y.value < 2 ^ (x.bound + y.bound) := by
    calc x.value * y.value < 2 ^ x.bound * 2 ^ y.bound :=
          mul_lt_mul'' hxv hyv (Nat.zero_le _) (Nat.zero_le _)
      _ = 2 ^ (x.bound + y.bound) := (pow_add 2 x.bound y.bound).symm
  refine ⟨rfl, rfl, ⟨Nat.size_le.mpr hprod, show x.bound + y.bound ≤ 2 * bits by omega⟩, ?_, ?_⟩
  · intro hlt
    have hmod : (x.value * y.value) % 2 ^ bits = x.value * y.value :=
      Nat.mod_eq_of_lt (lt_of_lt_of_le hprod (Nat.pow_le_pow_right (by norm_num) (le_of_lt hlt)))
    simp [BoundedInt.checked_mul, hlt, hmod]
  · intro hge
    simp [BoundedInt.checked_mul, Nat.not_lt.mpr hge]

/-- C8 witness: width 8, operands of bounds 3 and 4; the checked product has
bound 7 and the exact value 45. -/
theorem claim_c8_witness :
    (BoundedInt.mul_wide ⟨3, 5⟩ ⟨4, 9⟩).bound = 3 + 4 ∧
    (BoundedInt.mul_wide ⟨3, 5⟩ ⟨4, 9⟩).value = 5 * 9 ∧
    (BoundedInt.mul_wide ⟨3, 5⟩ ⟨4, 9⟩).Valid (2 * 8) ∧
    (3 + 4 < 8 → BoundedInt.checked_mul 8 ⟨3, 5⟩ ⟨4, 9⟩ = some ⟨3 + 4, 5 * 9⟩) ∧
    (8 ≤ 3 + 4 → BoundedInt.checked_mul 8 ⟨3, 5⟩ ⟨4, 9⟩ = none) :=
  claim_c8 8 ⟨3, 5⟩ ⟨4, 9⟩
    ⟨Nat.size_le.mpr (by norm_num), by norm_num⟩
    ⟨Nat.size_le.mpr (by norm_num), by norm_num⟩

/-- C10: the signing combine round performs no validation at receive time:
`verify_broadcast` returns `Ok` with the contained share for every sender and
every message. -/
theorem claim_c10 {q : ℕ} (self : SigningRound1 q) (from_idx : ℕ)
    (msg : SigningRound1Bcast q) :
    signingVerifyBroadcast self from_idx msg = Except.ok msg.s_part :=
  rfl

/-! ### Byte-string helper lemmas for the packed wire form -/

theorem toLeBytes_length (len v : ℕ) : (toLeBytes len v).length = len := by
  induction len generalizing v with
  | zero => simp [toLeBytes]
  | succ n ih => simp [toLeBytes, ih]

theorem fromLeBytes_cons (b : ℕ) (l : List ℕ) :
    fromLeBytes (b :: l) = b + 256 * fromLeBytes l := rfl

theorem fromLeBytes_toLeBytes (len v : ℕ) :
    fromLeBytes (toLeBytes len v) = v % 256 ^ len := by
  induction len generalizing v with
  | zero => simp [toLeBytes, fromLeBytes, Nat.mod_one]
  | succ n ih =>
    rw [toLeBytes, fromLeBytes_cons, ih, pow_succ, mul_comm (256 ^ n) 256, Nat.mod_mul]

theorem toLeBytes_take (m len v : ℕ) (h : m ≤ len) :
    (toLeBytes len v).take m = toLeBytes m v := by
  induction len generalizing v m with
  | zero =>
    have : m = 0 := Nat.le_zero.mp h
    simp [this, toLeBytes]
  | succ n ih =>
    cases m with
    | zero => simp [toLeBytes]
    | succ m' => simp [toLeBytes, List.take, ih m' (v / 256) (Nat.succ_le_succ_iff.mp h)]

theorem fromLeBytes_replicate_zero (k : ℕ) : fromLeBytes (List.replicate k 0) = 0 := by
  induction k with
  | zero => rfl
  | succ k ih => rw [List.replicate_succ, fromLeBytes_cons, ih]

theorem fromLeBytes_append_zeros (l : List ℕ) (k : ℕ) :
    fromLeBytes (l ++ List.replicate k 0) = fromLeBytes l := by
  induction l with
  | nil =>
    rw [List.nil_append]
    exact fromLeBytes_replicate_zero k
  | cons b l ih => simp [fromLeBytes_cons, ih]

theorem packBounded_bytes (nb : ℕ) (b : BoundedInt) (h : (b.bound + 7) / 8 ≤ nb) :
    (packBounded nb b).bytes = (toLeBytes ((b.bound + 7) / 8) b.value).reverse := by
  unfold packBounded toBeBytes
  simp only [List.length_reverse, toLeBytes_length, List.drop_reverse]
  rw [show nb - (nb - (b.bound + 7) / 8) = (b.bound + 7) / 8 by omega]
  rw [toLeBytes_take _ _ _ h]

/-- C5: the canonical description pinned by the `r2_rp_modulus_too_small`
test is the framework prefix followed by
"Round 2: ring-Pedersent modulus is too small." (sic, with the misspelling
"Pedersent"), which differs from the description the specification states. -/
theorem claim_c5 :
    r2RpModulusTooSmallExpected =
      protocolErrorPrefix ++ "Round 2: ring-Pedersent modulus is too small." ∧
    r2RpModulusTooSmallExpected ≠
      protocolErrorPrefix ++ r2RpModulusTooSmallSpecDescription := by
  constructor
  · rfl
  · decide

/-- C9: for every valid `Bounded` value, the packed wire form keeps exactly
`ceil(bound / 8)` big-endian bytes and converting back recovers the value;
conversely `try_from` errors exactly when the byte string is longer than the
integer representation or the decoded value fails
`value.bits() ≤ bound ≤ T::BITS`. -/
theorem claim_c9 (nb : ℕ) (b : BoundedInt) (hb : b.Valid (8 * nb)) :
    (packBounded nb b).bytes.length = (b.bound + 7) / 8 ∧
    unpackBounded nb (packBounded nb b) = some b ∧
    (∀ p : PackedBounded,
      unpackBounded nb p = none ↔
        (nb < p.bytes.length ∨
          ¬(Nat.size (fromBeBytes
                (List.replicate (nb - p.bytes.length) 0 ++ p.bytes)) ≤ p.bound ∧
            p.bound ≤ 8 * nb))) := by
  obtain ⟨hsize, hbits⟩ := hb
  have hbb : (b.bound + 7) / 8 ≤ nb := by omega
  have hbytes := packBounded_bytes nb b hbb
  have hlen : (packBounded nb b).bytes.length = (b.bound + 7) / 8 := by
    rw [hbytes, List.length_reverse, toLeBytes_length]
  refine ⟨hlen, ?_, ?_⟩
  · have hval : b.value < 256 ^ ((b.bound + 7) / 8) := by
      have h1 : b.value < 2 ^ b.bound := Nat.size_le.mp hsize
      have h2 : (2 : ℕ) ^ b.bound ≤ 2 ^ (8 * ((b.bound + 7) / 8)) :=
        Nat.pow_le_pow_right (by norm_num) (by omega)
      calc b.value < 2 ^ b.bound := h1
        _ ≤ 2 ^ (8 * ((b.bound + 7) / 8)) := h2
        _ = 256 ^ ((b.bound + 7) / 8) := by
            rw [pow_mul]
            norm_num
    have hdec : fromBeBytes
        (List.replicate (nb - (packBounded nb b).bytes.length) 0 ++ (packBounded nb b).bytes)
        = b.value := by
      rw [hlen, hbytes]
      unfold fromBeBytes
      rw [List.reverse_append, List.reverse_reverse, List.reverse_replicate,
        fromLeBytes_append_zeros, fromLeBytes_toLeBytes, Nat.mod_eq_of_lt hval]
    unfold unpackBounded
    rw [if_neg (by omega), hdec]
    show BoundedInt.new (8 * nb) b.value (packBounded nb b).bound = some b
    have hpb : (packBounded nb b).bound = b.bound := rfl
    rw [hpb]
    unfold BoundedInt.new
    rw [if_neg (by push_neg; omega)]
  · intro p
    unfold unpackBounded BoundedInt.new
    by_cases h1 : nb < p.bytes.length
    · simp [h1]
    · rw [if_neg h1]
      by_cases h2 : p.bound > 8 * nb ∨
          Nat.size (fromBeBytes (List.replicate (nb - p.bytes.length) 0 ++ p.bytes)) > p.bound
      · rw [if_pos h2]
        constructor
        · intro _
          right
          rintro ⟨hca, hcb⟩
          rcases h2 with h2 | h2 <;> omega
        · intro _
          rfl
      · rw [if_neg h2]
        push_neg at h2
        constructor
        · intro h
          exact Option.noConfusion h
        · intro h
          rcases h with h | h
          · exact absurd h h1
          · exact absurd ⟨h2.2, h2.1⟩ h

/-- C9 witness: a 16-bit integer with value 19 and bound 5 round-trips through
the packed form. -/
theorem claim_c9_witness :
    (packBounded 2 ⟨5, 19⟩).bytes.length = (5 + 7) / 8 ∧
    unpackBounded 2 (packBounded 2 ⟨5, 19⟩) = some ⟨5, 19⟩ ∧
    (∀ p : PackedBounded,
      unpackBounded 2 p = none ↔
        (2 < p.bytes.length ∨
          ¬(Nat.size (fromBeBytes
                (List.replicate (2 - p.bytes.length) 0 ++ p.bytes)) ≤ p.bound ∧
            p.bound ≤ 8 * 2))) :=
  claim_c9 2 ⟨5, 19⟩ ⟨Nat.size_le.mpr (by norm_num), by norm_num⟩

/-! ### Key-share update helper lemmas -/

theorem sum_zipWith_add {M : Type} [AddCommMonoid M] :
    ∀ (l1 l2 : List M), l1.length = l2.length →
      (List.zipWith (fun a b => a + b) l1 l2).sum = l1.sum + l2.sum := by
  intro l1
  induction l1 with
  | nil =>
    intro l2 h
    cases l2 with
    | nil => simp
    | cons b t => simp at h
  | cons a t ih =>
    intro l2 h
    cases l2 with
    | nil => simp at h
    | cons b t2 =>
      have ht : t.length = t2.length := by simpa using h
      simp only [List.zipWith_cons_cons, List.sum_cons, ih t2 ht]
      exact add_add_add_comm a b t.sum t2.sum

/-- C4: applying a `KeyShareChange` whose public share deltas (one per party)
sum to the zero point leaves the verifying key (the sum of the public share
points) unchanged. -/
theorem claim_c4 {q : ℕ} (self : KeyShare q) (change : KeyShareChange q)
    (hlen : change.public.length = self.public.length)
    (hzero : (change.public.map (fun p => p.share_pk)).sum = 0) :
    (self.update change).verifying_key_as_point = self.verifying_key_as_point := by
  unfold KeyShare.update KeyShare.verifying_key_as_point
  simp only [List.map_zipWith]
  have hmap : List.zipWith
      (fun (a b : KeySharePublic q) => a.share_pk + b.share_pk) self.public change.public
      = List.zipWith (fun a b => a + b)
          (self.public.map (fun p => p.share_pk)) (change.public.map (fun p => p.share_pk)) := by
    rw [List.zipWith_map]
  rw [hmap, sum_zipWith_add _ _ (by simpa using hlen.symm), hzero, add_zero]

/-- C4 witness: two parties over `ZMod 7`, deltas `5` and `2` summing to zero;
the verifying key is unchanged by the update. -/
theorem claim_c4_witness :
    (KeyShare.update
        ⟨0, ⟨2, 0, 0⟩, [⟨3, 0, 0, 0, 0⟩, ⟨4, 0, 0, 0, 0⟩]⟩
        ⟨0, ⟨1, 0, 0⟩, [⟨5, 0, 0, 0, 0⟩, ⟨2, 0, 0, 0, 0⟩]⟩).verifying_key_as_point
      = (KeyShare.verifying_key_as_point (q := 7)
          ⟨0, ⟨2, 0, 0⟩, [⟨3, 0, 0, 0, 0⟩, ⟨4, 0, 0, 0, 0⟩]⟩) :=
  claim_c4 ⟨0, ⟨2, 0, 0⟩, [⟨3, 0, 0, 0, 0⟩, ⟨4, 0, 0, 0, 0⟩]⟩
    ⟨0, ⟨1, 0, 0⟩, [⟨5, 0, 0, 0, 0⟩, ⟨2, 0, 0, 0, 0⟩]⟩ rfl (by decide)

/-- C1: in the signing combine round, the broadcast share is
`s_i = k_i * m + r * χ_i` with `r` the x-coordinate of the nonce point, and
finalize succeeds with a signature exactly when the curve adapter assembles
`(r, Σ received + own)` into a recoverable signature against the verifying
key and the message. -/
theorem claim_c1 {q : ℕ} {Sig : Type} (x_coordinate : ZMod q → ZMod q)
    (from_scalars : ZMod q → ZMod q → ZMod q → ZMod q → Option Sig)
    (num_parties party_idx : ℕ) (context : SigningContext q)
    (bc_payloads : List (ZMod q)) :
    (signingMakeBroadcast
        (signingRound1New x_coordinate num_parties party_idx context)).s_part
      = context.presigning.ephemeral_scalar_share * context.message
        + x_coordinate context.presigning.nonce * context.presigning.product_share ∧
    (∀ sig : Sig,
      signingFinalizeToResult from_scalars
          (signingRound1New x_coordinate num_parties party_idx context) bc_payloads
        = Except.ok sig ↔
      from_scalars (x_coordinate context.presigning.nonce)
          (bc_payloads.sum
            + (context.presigning.ephemeral_scalar_share * context.message
              + x_coordinate context.presigning.nonce * context.presigning.product_share))
          context.key_share.verifying_key_as_point context.message = some sig) := by
  refine ⟨rfl, fun sig => ?_⟩
  simp only [signingFinalizeToResult, signingRound1New]
  cases h : from_scalars (x_coordinate context.presigning.nonce)
      (bc_payloads.sum
        + (context.presigning.ephemeral_scalar_share * context.message
          + x_coordinate context.presigning.nonce * context.presigning.product_share))
      context.key_share.verifying_key_as_point context.message with
  | none => simp [h]
  | some s => simp [h]

/-- C3: pre-signing Round 3 finalize and signing Round 1 finalize return the
round's success value exactly when the consistency check passes, and return
the full correctness-proof bundle (an `Π^aff-g` entry for every pair of the
two peer loops, the `Π^mul` resp. `Π^mul*` component, and a `Π^dec` entry per
peer) as the error exactly when the check fails. -/
theorem claim_c3 {q : ℕ} {Sig : Type}
    (num_parties my_idx : ℕ) (peer_deltas peer_big_deltas : List (ZMod q))
    (own_delta own_big_delta big_gamma k_share chi_share : ZMod q)
    (from_scalars : ZMod q → ZMod q → ZMod q → ZMod q → Option Sig)
    (self : SigningRound1 q) (bc_payloads : List (ZMod q)) :
    (∀ pf : PresigningProof,
      presigningRound3Finalize num_parties my_idx peer_deltas peer_big_deltas
          own_delta own_big_delta big_gamma k_share chi_share
        = some (Except.error pf) ↔
      (peer_deltas.sum + own_delta ≠ peer_big_deltas.sum + own_big_delta ∧
        pf = ⟨(holeRange num_parties my_idx).flatMap
                (fun j => (holeRange num_parties my_idx).map (fun l => (j, l))),
              holeRange num_parties my_idx⟩)) ∧
    (∀ d : PresigningData q,
      presigningRound3Finalize num_parties my_idx peer_deltas peer_big_deltas
          own_delta own_big_delta big_gamma k_share chi_share
        = some (Except.ok d) ↔
      (peer_deltas.sum + own_delta = peer_big_deltas.sum + own_big_delta ∧
        peer_deltas.sum + own_delta ≠ 0 ∧
        d = ⟨big_gamma * (peer_deltas.sum + own_delta)⁻¹, k_share, chi_share⟩)) ∧
    (∀ sig : Sig,
      signingFinalizeToResult from_scalars self bc_payloads = Except.ok sig ↔
      from_scalars self.r (bc_payloads.sum + self.s_part)
          self.context.key_share.verifying_key_as_point self.context.message
        = some sig) ∧
    (∀ pf : SigningProof,
      signingFinalizeToResult from_scalars self bc_payloads = Except.error pf ↔
      (from_scalars self.r (bc_payloads.sum + self.s_part)
          self.context.key_share.verifying_key_as_point self.context.message
        = none ∧
        pf = ⟨(holeRange self.num_parties self.party_idx).flatMap
                (fun j => (holeRange self.num_parties self.party_idx).map (fun l => (j, l))),
              holeRange self.num_parties self.party_idx,
              holeRange self.num_parties self.party_idx⟩)) := by
  refine ⟨fun pf => ?_, fun d => ?_, fun sig => ?_, fun pf => ?_⟩
  · simp only [presigningRound3Finalize]
    by_cases h1 : peer_deltas.sum + own_delta = peer_big_deltas.sum + own_big_delta
    · by_cases h2 : peer_deltas.sum + own_delta = 0 <;> simp [h1, h2]
    · simp only [if_neg h1]
      constructor
      · intro h
        exact ⟨h1, by injection h with h; injection h with h; exact h.symm⟩
      · rintro ⟨_, rfl⟩
        rfl
  · simp only [presigningRound3Finalize]
    by_cases h1 : peer_deltas.sum + own_delta = peer_big_deltas.sum + own_big_delta
    · by_cases h2 : peer_deltas.sum + own_delta = 0
      · rw [if_pos h1, if_pos h2]
        constructor
        · intro h
          exact Option.noConfusion h
        · rintro ⟨_, hne, _⟩
          exact absurd h2 hne
      · rw [if_pos h1, if_neg h2]
        constructor
        · intro h
          exact ⟨h1, h2, by injection h with h; injection h with h; exact h.symm⟩
        · rintro ⟨_, _, rfl⟩
          rfl
    · rw [if_neg h1]
      constructor
      · intro h
        injection h with h
        exact Except.noConfusion h
      · rintro ⟨hc, _, _⟩
        exact absurd hc h1
  · simp only [signingFinalizeToResult]
    cases h : from_scalars self.r (bc_payloads.sum + self.s_part)
        self.context.key_share.verifying_key_as_point self.context.message with
    | none => simp [h]
    | some s => simp [h]
  · simp only [signingFinalizeToResult]
    cases h : from_scalars self.r (bc_payloads.sum + self.s_part)
        self.context.key_share.verifying_key_as_point self.context.message with
    | none =>
      constructor
      · intro heq
        refine ⟨rfl, ?_⟩
        injection heq with heq
        exact heq.symm
      · rintro ⟨_, rfl⟩
        rfl
    | some s => simp

/-! ### Honest pre-signing helper lemmas -/

theorem filter_map_sum_ite {α M : Type} [AddCommMonoid M] [DecidableEq α]
    (l : List α) (i : α) (f : α → M) :
    ((l.filter (fun j => j ≠ i)).map f).sum
      = (l.map (fun j => if j = i then 0 else f j)).sum := by
  induction l with
  | nil => simp
  | cons a t ih =>
    simp only [ne_eq, decide_not] at ih ⊢
    by_cases h : a = i
    · simp [h, ih]
    · simp [h, ih]

theorem holeListFin_map_sum {M : Type} [AddCommMonoid M] {n : ℕ} (i : Fin n)
    (f : Fin n → M) :
    ((holeListFin n i).map f).sum = ∑ j ∈ Finset.univ.erase i, f j := by
  rw [holeListFin, filter_map_sum_ite, ← Fin.sum_univ_def, ← Finset.filter_ne',
    Finset.sum_filter]
  simp only [ne_eq, ite_not]

theorem intCast_val_self {q : ℕ} [NeZero q] (a : ZMod q) :
    ((a.val : ℤ) : ZMod q) = a := by
  rw [Int.cast_natCast]
  exact ZMod.natCast_rightInverse a

theorem natCast_val_self {q : ℕ} [NeZero q] (a : ZMod q) :
    ((a.val : ℕ) : ZMod q) = a :=
  ZMod.natCast_rightInverse a

theorem capGamma_total {q n : ℕ} (gam : Fin n → ZMod q) (i : Fin n) :
    capGamma gam i = ∑ j, gam j :=
  Finset.sum_erase_add _ _ (Finset.mem_univ i)

theorem deltaShare_total {q n : ℕ} (k gam : Fin n → ZMod q)
    (beta : Fin n → Fin n → ℤ) :
    (∑ i, deltaShare k gam beta i)
      = (∑ i, (((k i).val : ℤ))) * (∑ i, (((gam i).val : ℤ))) := by
  have herase : ∀ (g : Fin n → ℤ) (i : Fin n),
      (∑ j ∈ Finset.univ.erase i, g j) = (∑ j, g j) - g i :=
    fun g i => Finset.sum_erase_eq_sub (Finset.mem_univ i)
  calc ∑ i, deltaShare k gam beta i
      = ∑ i, ((((k i).val : ℤ)) * (∑ j, (((gam j).val : ℤ)))
          - (∑ j, beta j i) + (∑ j, beta i j)) := by
        refine Finset.sum_congr rfl (fun i _ => ?_)
        unfold deltaShare alphaPayload dPlain
        rw [herase, herase, Finset.sum_sub_distrib, ← Finset.mul_sum]
        ring
    _ = (∑ i, (((k i).val : ℤ))) * (∑ i, (((gam i).val : ℤ))) := by
        simp only [Finset.sum_add_distrib, Finset.sum_sub_distrib, Finset.sum_mul]
        rw [show (∑ i, ∑ j, beta j i) = ∑ i, ∑ j, beta i j from Finset.sum_comm]
        ring

theorem deltaScalar_total {q n : ℕ} [NeZero q] (k gam : Fin n → ZMod q)
    (beta : Fin n → Fin n → ℤ) :
    (∑ i, deltaScalarShare k gam beta i) = (∑ j, k j) * (∑ j, gam j) := by
  unfold deltaScalarShare
  rw [← Int.cast_sum, deltaShare_total]
  push_cast
  simp only [natCast_val_self]

theorem bigDelta_total {q n : ℕ} (k gam : Fin n → ZMod q) :
    (∑ i, bigDeltaShare k gam i) = (∑ j, gam j) * (∑ j, k j) := by
  unfold bigDeltaShare
  simp only [capGamma_total]
  rw [← Finset.mul_sum]

theorem productShare_total {q n : ℕ} [NeZero q] (x k : Fin n → ZMod q)
    (betaHat : Fin n → Fin n → ℤ) :
    (∑ i, productShare x k betaHat i) = (∑ j, k j) * (∑ j, x j) := by
  have herase : ∀ (g : Fin n → ℤ) (i : Fin n),
      (∑ j ∈ Finset.univ.erase i, g j) = (∑ j, g j) - g i :=
    fun g i => Finset.sum_erase_eq_sub (Finset.mem_univ i)
  have heraseZ : ∀ (g : Fin n → ZMod q) (i : Fin n),
      (∑ j ∈ Finset.univ.erase i, g j) = (∑ j, g j) - g i :=
    fun g i => Finset.sum_erase_eq_sub (Finset.mem_univ i)
  calc ∑ i, productShare x k betaHat i
      = ∑ i, (k i * (∑ j, x j)
          - (∑ j, ((betaHat j i : ℤ) : ZMod q)) + (∑ j, ((betaHat i j : ℤ) : ZMod q))) := by
        refine Finset.sum_congr rfl (fun i _ => ?_)
        unfold productShare alphaHatPayload dHatPlain
        rw [heraseZ, herase]
        push_cast
        simp only [natCast_val_self]
        rw [Finset.sum_sub_distrib, ← Finset.mul_sum]
        ring
    _ = (∑ j, k j) * (∑ j, x j) := by
        simp only [Finset.sum_add_distrib, Finset.sum_sub_distrib, Finset.sum_mul]
        rw [show (∑ i, ∑ j, ((betaHat j i : ℤ) : ZMod q))
            = ∑ i, ∑ j, ((betaHat i j : ℤ) : ZMod q) from Finset.sum_comm]
        ring

/-- C2: in an honest pre-signing run with `n ≥ 2` parties whose ephemeral and
masking scalars have nonzero sums, every party's Round 3 finalize succeeds
with the same nonce `R = g * k⁻¹` (exponent representation: `k⁻¹` for
`k = Σ kᵢ`), each party keeping its shares `kᵢ` and `χᵢ`, and the product
shares satisfy `Σ χᵢ = k * x` for `x = Σ xᵢ`. -/
theorem claim_c2 {q : ℕ} [Fact (Nat.Prime q)] {n : ℕ} (_hn : 2 ≤ n)
    (x k gam : Fin n → ZMod q) (beta betaHat : Fin n → Fin n → ℤ)
    (hk : (∑ j, k j) ≠ 0) (hg : (∑ j, gam j) ≠ 0) :
    (∀ i, presigningHonestFinalize x k gam beta betaHat i
        = some (Except.ok ⟨(∑ j, k j)⁻¹, k i, productShare x k betaHat i⟩)) ∧
    (∑ i, productShare x k betaHat i) = (∑ j, k j) * (∑ j, x j) := by
  haveI : NeZero q := ⟨(Fact.out : Nat.Prime q).ne_zero⟩
  constructor
  · intro i
    simp only [presigningHonestFinalize, presigningRound3Finalize]
    have hd : ((holeListFin n i).map (deltaScalarShare k gam beta)).sum
        + deltaScalarShare k gam beta i = (∑ j, k j) * (∑ j, gam j) := by
      rw [holeListFin_map_sum, Finset.sum_erase_add _ _ (Finset.mem_univ i),
        deltaScalar_total]
    have hbd : ((holeListFin n i).map (bigDeltaShare k gam)).sum
        + bigDeltaShare k gam i = (∑ j, gam j) * (∑ j, k j) := by
      rw [holeListFin_map_sum, Finset.sum_erase_add _ _ (Finset.mem_univ i),
        bigDelta_total]
    rw [hd, hbd, if_pos (mul_comm _ _), if_neg (mul_ne_zero hk hg)]
    have hnonce : capGamma gam i * ((∑ j, k j) * (∑ j, gam j))⁻¹ = (∑ j, k j)⁻¹ := by
      rw [capGamma_total, mul_inv, mul_comm ((∑ j, k j)⁻¹) ((∑ j, gam j)⁻¹),
        ← mul_assoc, mul_inv_cancel₀ hg, one_mul]
    rw [hnonce]
  · exact productShare_total x k betaHat

/-- C2 witness: two parties over `ZMod 5` with concrete shares and offsets;
both finalizes succeed with nonce `2⁻¹ = 3` and the product shares sum to
`k * x`. -/
theorem claim_c2_witness :
    (∀ i : Fin 2, presigningHonestFinalize (q := 5)
          (fun _ => 1) (fun _ => 1) (fun _ => 2) (fun _ _ => 7) (fun _ _ => -3) i
        = some (Except.ok ⟨(∑ j : Fin 2, (fun _ => (1 : ZMod 5)) j)⁻¹,
            (fun _ => (1 : ZMod 5)) i,
            productShare (fun _ => 1) (fun _ => 1) (fun _ _ => -3) i⟩)) ∧
    (∑ i : Fin 2, productShare (q := 5) (fun _ => 1) (fun _ => 1) (fun _ _ => -3) i)
      = (∑ j : Fin 2, (fun _ => (1 : ZMod 5)) j) * (∑ j : Fin 2, (fun _ => (1 : ZMod 5)) j) := by
  have hk : (∑ j : Fin 2, (fun _ => (1 : ZMod 5)) j) ≠ 0 := by decide
  have hg : (∑ j : Fin 2, (fun _ => (2 : ZMod 5)) j) ≠ 0 := by decide
  haveI : Fact (Nat.Prime 5) := ⟨by norm_num⟩
  exact claim_c2 (by norm_num) (fun _ => 1) (fun _ => 1) (fun _ => 2)
    (fun _ _ => 7) (fun _ _ => -3) hk hg

end SynedrionVerify
